import Mathlib

/-!
Shallow embedding of `src/convert_images.py`, a batch PNG/JPEG→WEBP
conversion utility, together with proofs of its specified properties.

The directory handed to the converter is modelled as an association list
from file names to file contents (`FS`).  File contents are abstracted to
exactly what the program observes: a decodable image with a PIL mode
string, undecodable data, or a WEBP output file recording the channel
count, quality and method it was encoded with.
-/

namespace ConvertImages

/-- Contents of one file, as observed by the conversion pipeline.
`image mode` is a file that the image library opens successfully,
reporting the given mode string; `corrupt` and `other` are files whose
opening fails (corrupt image data, directories, non-image data);
`webp channels quality method` is a WEBP output file as written by the
converter. -/
inductive FileData : Type
  | image (mode : String)
  | corrupt
  | other
  | webp (channels : Nat) (quality : Int) (method : Nat)
deriving DecidableEq, Repr

/-- A directory state: an association list from file name to contents,
in (arbitrary) directory-listing order.  A real directory has distinct
names; theorems that need this take a `Nodup` hypothesis on `fsKeys`. -/
abbrev FS := List (String × FileData)

/-- The names present in the directory, in listing order. -/
def fsKeys (fs : FS) : List String := fs.map Prod.fst

/-- Look a name up in the directory. -/
def fsLookup : FS → String → Option FileData
  | [], _ => none
  | e :: fs, n => if e.1 = n then some e.2 else fsLookup fs n

/-- Write a file: overwrite the existing entry of that name, or append a
new entry.  Models `out.save(webp_path, ...)`. -/
def fsWrite : FS → String → FileData → FS
  | [], n, d => [(n, d)]
  | e :: fs, n, d => if e.1 = n then (n, d) :: fs else e :: fsWrite fs n d

/-- Delete a file by name.  Models `source_path.unlink()`. -/
def fsUnlink : FS → String → FS
  | [], _ => []
  | e :: fs, n => if e.1 = n then fs else e :: fsUnlink fs n

/-- Code-point lexicographic comparison of character lists: the order
Python uses on `str` (and hence, within one directory, on paths). -/
def lexLe : List Char → List Char → Bool
  | [], _ => true
  | _ :: _, [] => false
  | a :: as, b :: bs => if a < b then true else if b < a then false else lexLe as bs

/-- The lexicographic order on file names used by `sorted`. -/
def strLe (a b : String) : Prop := lexLe a.data b.data = true

instance : DecidableRel strLe := fun _ _ => inferInstanceAs (Decidable (_ = true))

theorem lexLe_total : ∀ a b : List Char, lexLe a b = true ∨ lexLe b a = true
  | [], _ => Or.inl rfl
  | _ :: _, [] => Or.inr rfl
  | a :: as, b :: bs => by
    by_cases hab : a < b
    · exact Or.inl (by simp [lexLe, hab])
    · by_cases hba : b < a
      · exact Or.inr (by simp [lexLe, hba])
      · rcases lexLe_total as bs with h | h
        · exact Or.inl (by simp [lexLe, hab, hba, h])
        · exact Or.inr (by simp [lexLe, hab, hba, h])

theorem lexLe_trans :
    ∀ a b c : List Char, lexLe a b = true → lexLe b c = true → lexLe a c = true
  | [], _, _, _, _ => rfl
  | _ :: _, [], _, h, _ => by simp [lexLe] at h
  | _ :: _, _ :: _, [], _, h => by simp [lexLe] at h
  | a :: as, b :: bs, c :: cs, h₁, h₂ => by
    by_cases hab : a < b
    · by_cases hbc : b < c
      · simp [lexLe, lt_trans hab hbc]
      · by_cases hcb : c < b
        · simp [lexLe, hbc, hcb] at h₂
        · obtain rfl : b = c := le_antisymm (not_lt.mp hcb) (not_lt.mp hbc)
          simp [lexLe, hab]
    · by_cases hba : b < a
      · simp [lexLe, hab, hba] at h₁
      · obtain rfl : a = b := le_antisymm (not_lt.mp hba) (not_lt.mp hab)
        simp only [lexLe, lt_irrefl, if_false, if_neg] at h₁
        by_cases hbc : a < c
        · simp [lexLe, hbc]
        · by_cases hcb : c < a
          · simp [lexLe, hbc, hcb] at h₂
          · obtain rfl : a = c := le_antisymm (not_lt.mp hcb) (not_lt.mp hbc)
            simp only [lexLe, lt_irrefl, if_false, if_neg] at h₂ ⊢
            exact lexLe_trans as bs cs h₁ h₂

theorem lexLe_antisymm :
    ∀ a b : List Char, lexLe a b = true → lexLe b a = true → a = b
  | [], [], _, _ => rfl
  | [], _ :: _, _, h => by simp [lexLe] at h
  | _ :: _, [], h, _ => by simp [lexLe] at h
  | a :: as, b :: bs, h₁, h₂ => by
    by_cases hab : a < b
    · simp [lexLe, hab, lt_asymm hab] at h₂
    · by_cases hba : b < a
      · simp [lexLe, hab, hba] at h₁
      · obtain rfl : a = b := le_antisymm (not_lt.mp hba) (not_lt.mp hab)
        simp only [lexLe, lt_irrefl, if_false, if_neg] at h₁ h₂
        rw [lexLe_antisymm as bs h₁ h₂]

instance : IsTotal String strLe := ⟨fun a b => lexLe_total a.data b.data⟩

instance : IsTrans String strLe := ⟨fun a b c => lexLe_trans a.data b.data c.data⟩

instance : IsAntisymm String strLe :=
  ⟨fun a b h₁ h₂ => by
    cases a; cases b
    exact congrArg String.mk (lexLe_antisymm _ _ h₁ h₂)⟩

/-- `strEndsWith s sfx` holds when `sfx` is a suffix of `s`; this is the
name condition under which `root.glob("*" + sfx)` yields a directory
entry (pathlib wildcards also match names beginning with a dot). -/
def strEndsWith (s sfx : String) : Bool := List.isSuffixOf sfx.data s.data

/-- Index of the last `'.'` in a name, if any (Python `str.rfind`). -/
def lastDotIdx (l : List Char) : Option Nat :=
  match List.findIdx? (fun c => c == '.') l.reverse with
  | none => none
  | some r => some (l.length - 1 - r)

/-- `pathlib.PurePath.with_suffix`: if the name has a proper extension
(the last dot is neither at position 0 nor at the very end), replace it
by `sfx`; otherwise append `sfx`.  Models `source_path.with_suffix(".webp")`. -/
def withSuffix (s sfx : String) : String :=
  match lastDotIdx s.data with
  | some i =>
    if 0 < i ∧ i < s.data.length - 1 then ⟨s.data.take i ++ sfx.data⟩
    else ⟨s.data ++ sfx.data⟩
  | none => ⟨s.data ++ sfx.data⟩

/-- A name matches one of the three glob patterns `*.png`, `*.jpg`,
`*.jpeg` (case-sensitive). -/
def matchesExt (n : String) : Bool :=
  strEndsWith n ".png" || strEndsWith n ".jpg" || strEndsWith n ".jpeg"

/-- `root.glob("*" + ext)`: the names in the directory ending in `ext`,
in directory-listing order. -/
def globList (fs : FS) (ext : String) : List String :=
  (fsKeys fs).filter (fun n => strEndsWith n ext)

/-- Line 26 of the source: the three glob lists are concatenated and
sorted.  Sorting full paths inside one directory compares the file
names lexicographically, which is the `String` linear order. -/
def sourceFiles (fs : FS) : List String :=
  List.insertionSort strLe (globList fs ".png" ++ globList fs ".jpg" ++ globList fs ".jpeg")

/-- Modelled from the spec: the image codec is an external collaborator
of the program; per the spec its WEBP encoder accepts quality values in
the range 0–100 and fails with an encoding error outside that range. -/
def encodeOk (quality : Int) : Bool := decide (0 ≤ quality) && decide (quality ≤ 100)

/-- Number of color channels produced by lines 31–34: `RGBA`/`P` modes
are converted to `RGBA` (4 channels), every other mode to `RGB` (3). -/
def outChannels (mode : String) : Nat :=
  if mode = "RGBA" ∨ mode = "P" then 4 else 3

/-- The error raised inside one iteration of the conversion loop. -/
inductive ConvErr : Type
  | openError
  | encodeError
deriving DecidableEq, Repr

/-- One iteration of the loop (lines 28–38) on one source file: compute
the sibling `.webp` name, open the image (failure propagates), convert
the mode, save the WEBP file with the given quality and `method=6`,
optionally unlink the source, and return the recorded name pair. -/
def convertStep (quality : Int) (delete : Bool) (fs : FS) (name : String) :
    Except ConvErr (FS × (String × String)) :=
  let webpName := withSuffix name ".webp"
  match fsLookup fs name with
  | none => .error .openError
  | some .corrupt => .error .openError
  | some .other => .error .openError
  | some (.webp _ _ _) => .error .openError
  | some (.image mode) =>
    if encodeOk quality then
      let fs1 := fsWrite fs webpName (.webp (outChannels mode) quality 6)
      let fs2 := if delete then fsUnlink fs1 name else fs1
      .ok (fs2, (name, webpName))
    else .error .encodeError

/-- Outcome of a run: either the final directory state with the list of
recorded `(source name, destination name)` pairs, or — when an iteration
raised — the directory state at that moment, the offending file and the
error; in that case no result list is returned (the exception propagates
out of `convert_images_to_webp`). -/
inductive RunResult : Type
  | ok (fs : FS) (converted : List (String × String))
  | err (fs : FS) (failed : String) (e : ConvErr)
deriving DecidableEq, Repr

/-- The directory state when the run ends, successful or not. -/
def RunResult.finalFS : RunResult → FS
  | .ok fs _ => fs
  | .err fs _ _ => fs

/-- The result list, when the run succeeded. -/
def RunResult.converted : RunResult → Option (List (String × String))
  | .ok _ conv => some conv
  | .err _ _ _ => none

/-- Record one converted pair in front of the rest of the run's result;
an error outcome keeps propagating unchanged (the result list built so
far is lost when the exception escapes the loop). -/
def RunResult.consPair (pair : String × String) : RunResult → RunResult
  | .ok fs conv => .ok fs (pair :: conv)
  | .err fs m e => .err fs m e

/-- The `for source_path in source_files` loop of lines 28–38. -/
def convertLoop (quality : Int) (delete : Bool) : FS → List String → RunResult
  | fs, [] => .ok fs []
  | fs, n :: ns =>
    match convertStep quality delete fs n with
    | .error e => .err fs n e
    | .ok (fs1, pair) => (convertLoop quality delete fs1 ns).consPair pair

/-- `convert_images_to_webp(root, quality, delete_original)` (lines 23–39),
as a function of the directory state. -/
def convert_images_to_webp (fs : FS) (quality : Int) (delete_original : Bool) : RunResult :=
  convertLoop quality delete_original fs (sourceFiles fs)

/-- Python truthiness of the `--root` argument: `if root_arg:` is false
for `None` and for the empty string. -/
def pathTruthy : Option String → Bool
  | none => false
  | some s => s ≠ ""

/-- `resolve_root` (lines 17–20).  Modelled from the spec where the
behavior lives outside the program: `expandResolve` stands for pathlib's
`expanduser().resolve()` normalization of a user-supplied path, and
`resolveAbs` for `.resolve()` of an already absolute path; `scriptDir`
is the resolved directory containing the script. -/
def resolve_root (expandResolve : String → String) (resolveAbs : String → String)
    (scriptDir : String) (root_arg : Option String) : String :=
  if pathTruthy root_arg then expandResolve (root_arg.getD "")
  else resolveAbs (scriptDir ++ "/images")

/-- The lines `main` (lines 42–48) prints: one `src -> dst` line per
recorded pair, then the `converted: <count>` summary line. -/
def mainOutput (converted : List (String × String)) : List String :=
  (converted.map fun p => p.1 ++ " -> " ++ p.2) ++ ["converted: " ++ toString converted.length]

/-- Hypothesis shorthand: the looked-up file opens successfully as an
image (some `FileData.image` value). -/
def isImage : Option FileData → Bool
  | some (.image _) => true
  | _ => false

/-! ### Concrete directory states used in scenario checks -/

/-- The spec's scenario directory: `a.png`, `b.jpg`, `c.jpeg`. -/
def fsABC : FS :=
  [("a.png", .image "RGB"), ("b.jpg", .image "RGB"), ("c.jpeg", .image "P")]

/-- A directory holding an unsupported `.gif` file alongside a source file. -/
def fsGif : FS := [("b.gif", .image "RGB"), ("a.png", .image "RGB")]

/-- A directory whose single image is grayscale-with-alpha (`LA` mode). -/
def fsLA : FS := [("x.png", .image "LA")]

/-- A mixed directory for the frame conditions. -/
def fsC4 : FS := [("a.png", .image "RGBA"), ("notes.txt", .other)]

/-- A batch whose second file in sorted order is corrupt. -/
def fsCorrupt : FS :=
  [("a.png", .image "RGB"), ("b.jpg", .corrupt), ("c.jpeg", .image "RGB")]

/-- The directory state at the moment `fsCorrupt`'s run (with deletion,
quality 82) raises on `b.jpg`: `a.png` converted and deleted, the rest
untouched. -/
def fsErrState : FS :=
  [("b.jpg", .corrupt), ("c.jpeg", .image "RGB"), ("a.webp", .webp 3 82 6)]

/-- A single-file directory. -/
def fsOne : FS := [("a.png", .image "RGB")]

/-- Two listing orders of one and the same directory content. -/
def fsP1 : FS := [("a.png", .image "RGB"), ("b.jpg", .corrupt)]

/-- `fsP1` listed in the opposite order. -/
def fsP2 : FS := [("b.jpg", .corrupt), ("a.png", .image "RGB")]

/-- Two source files sharing the stem `a`. -/
def fsDup : FS := [("a.jpg", .image "RGB"), ("a.png", .image "RGBA")]

/-! ### Association-list lemmas for the directory model -/

theorem fsKeys_nil : fsKeys [] = [] := rfl

theorem fsKeys_cons (e : String × FileData) (fs : FS) :
    fsKeys (e :: fs) = e.1 :: fsKeys fs := rfl

theorem fsLookup_cons (e : String × FileData) (fs : FS) (n : String) :
    fsLookup (e :: fs) n = if e.1 = n then some e.2 else fsLookup fs n := rfl

theorem fsWrite_cons (e : String × FileData) (fs : FS) (n : String) (d : FileData) :
    fsWrite (e :: fs) n d = if e.1 = n then (n, d) :: fs else e :: fsWrite fs n d := rfl

theorem fsUnlink_cons (e : String × FileData) (fs : FS) (n : String) :
    fsUnlink (e :: fs) n = if e.1 = n then fs else e :: fsUnlink fs n := rfl

theorem fsLookup_write_self :
    ∀ (fs : FS) (n : String) (d : FileData), fsLookup (fsWrite fs n d) n = some d
  | [], n, d => by rw [show fsWrite [] n d = [(n, d)] from rfl, fsLookup_cons, if_pos rfl]
  | e :: fs, n, d => by
    rw [fsWrite_cons]
    by_cases h : e.1 = n
    · rw [if_pos h, fsLookup_cons, if_pos rfl]
    · rw [if_neg h, fsLookup_cons, if_neg h, fsLookup_write_self fs n d]

theorem fsLookup_write_ne :
    ∀ (fs : FS) (n m : String) (d : FileData), m ≠ n →
      fsLookup (fsWrite fs n d) m = fsLookup fs m
  | [], n, m, d, hmn => by
    rw [show fsWrite [] n d = [(n, d)] from rfl, fsLookup_cons,
      if_neg (fun h => hmn h.symm)]
  | e :: fs, n, m, d, hmn => by
    rw [fsWrite_cons]
    by_cases h : e.1 = n
    · rw [if_pos h, fsLookup_cons, fsLookup_cons, if_neg (fun hh => hmn hh.symm),
        if_neg (fun hm => hmn ((h ▸ hm : n = m)).symm)]
    · rw [if_neg h, fsLookup_cons, fsLookup_cons]
      by_cases hm : e.1 = m
      · rw [if_pos hm, if_pos hm]
      · rw [if_neg hm, if_neg hm, fsLookup_write_ne fs n m d hmn]

theorem mem_fsKeys_write :
    ∀ (fs : FS) (n m : String) (d : FileData),
      m ∈ fsKeys (fsWrite fs n d) ↔ m ∈ fsKeys fs ∨ m = n
  | [], n, m, d => by
    rw [show fsWrite [] n d = [(n, d)] from rfl, show fsKeys [(n, d)] = [n] from rfl,
      fsKeys_nil]
    simp
  | e :: fs, n, m, d => by
    rw [fsWrite_cons]
    by_cases h : e.1 = n
    · rw [if_pos h, show fsKeys ((n, d) :: fs) = n :: fsKeys fs from rfl, fsKeys_cons, h]
      simp only [List.mem_cons]
      tauto
    · rw [if_neg h, fsKeys_cons, fsKeys_cons]
      simp only [List.mem_cons, mem_fsKeys_write fs n m d]
      tauto

theorem nodup_fsKeys_write :
    ∀ (fs : FS) (n : String) (d : FileData), (fsKeys fs).Nodup →
      (fsKeys (fsWrite fs n d)).Nodup
  | [], n, d, _ => by
    rw [show fsWrite [] n d = [(n, d)] from rfl, show fsKeys [(n, d)] = [n] from rfl]
    simp
  | e :: fs, n, d, h => by
    rw [fsKeys_cons] at h
    rw [fsWrite_cons]
    by_cases he : e.1 = n
    · rw [if_pos he, show fsKeys ((n, d) :: fs) = n :: fsKeys fs from rfl]
      exact List.Nodup.cons (he ▸ (List.nodup_cons.mp h).1) (List.nodup_cons.mp h).2
    · rw [if_neg he, fsKeys_cons]
      refine List.Nodup.cons ?_ (nodup_fsKeys_write fs n d (List.nodup_cons.mp h).2)
      intro hmem
      rcases (mem_fsKeys_write fs n e.1 d).mp hmem with hin | heq
      · exact (List.nodup_cons.mp h).1 hin
      · exact he heq

theorem fsLookup_unlink_ne :
    ∀ (fs : FS) (n m : String), m ≠ n → fsLookup (fsUnlink fs n) m = fsLookup fs m
  | [], _, _, _ => rfl
  | e :: fs, n, m, hmn => by
    rw [fsUnlink_cons]
    by_cases h : e.1 = n
    · rw [if_pos h, fsLookup_cons, if_neg (fun hm => hmn ((h ▸ hm : n = m)).symm)]
    · rw [if_neg h, fsLookup_cons, fsLookup_cons]
      by_cases hm : e.1 = m
      · rw [if_pos hm, if_pos hm]
      · rw [if_neg hm, if_neg hm, fsLookup_unlink_ne fs n m hmn]

theorem mem_fsKeys_unlink :
    ∀ (fs : FS) (n m : String), m ∈ fsKeys (fsUnlink fs n) → m ∈ fsKeys fs
  | [], n, m, h => h
  | e :: fs, n, m, h => by
    rw [fsUnlink_cons] at h
    rw [fsKeys_cons]
    by_cases he : e.1 = n
    · rw [if_pos he] at h
      exact List.mem_cons_of_mem _ h
    · rw [if_neg he, fsKeys_cons] at h
      rcases List.mem_cons.mp h with h1 | h1
      · exact h1 ▸ List.mem_cons_self _ _
      · exact List.mem_cons_of_mem _ (mem_fsKeys_unlink fs n m h1)

theorem not_mem_fsKeys_unlink_self :
    ∀ (fs : FS) (n : String), (fsKeys fs).Nodup → n ∉ fsKeys (fsUnlink fs n)
  | [], n, _ => by rw [show fsUnlink [] n = [] from rfl, fsKeys_nil]; simp
  | e :: fs, n, h => by
    rw [fsKeys_cons] at h
    rw [fsUnlink_cons]
    by_cases he : e.1 = n
    · rw [if_pos he]
      exact he ▸ (List.nodup_cons.mp h).1
    · rw [if_neg he, fsKeys_cons]
      intro hmem
      rcases List.mem_cons.mp hmem with h1 | h1
      · exact he h1.symm
      · exact not_mem_fsKeys_unlink_self fs n (List.nodup_cons.mp h).2 h1

theorem nodup_fsKeys_unlink :
    ∀ (fs : FS) (n : String), (fsKeys fs).Nodup → (fsKeys (fsUnlink fs n)).Nodup
  | [], _, _ => List.nodup_nil
  | e :: fs, n, h => by
    rw [fsKeys_cons] at h
    rw [fsUnlink_cons]
    by_cases he : e.1 = n
    · rw [if_pos he]
      exact (List.nodup_cons.mp h).2
    · rw [if_neg he, fsKeys_cons]
      exact List.Nodup.cons
        (fun hmem => (List.nodup_cons.mp h).1 (mem_fsKeys_unlink fs n e.1 hmem))
        (nodup_fsKeys_unlink fs n (List.nodup_cons.mp h).2)

theorem fsLookup_mem_fsKeys :
    ∀ (fs : FS) (n : String), fsLookup fs n ≠ none → n ∈ fsKeys fs
  | [], n, h => absurd rfl h
  | e :: fs, n, h => by
    rw [fsLookup_cons] at h
    rw [fsKeys_cons]
    by_cases he : e.1 = n
    · exact he ▸ List.mem_cons_self _ _
    · rw [if_neg he] at h
      exact List.mem_cons_of_mem _ (fsLookup_mem_fsKeys fs n h)

/-! ### Suffix lemmas for file names -/

theorem strEndsWith_iff {s t : String} :
    strEndsWith s t = true ↔ t.data <:+ s.data := by
  unfold strEndsWith
  exact List.isSuffixOf_iff_suffix

theorem not_suffix_of_isSuffixOf_false {a b : List Char}
    (h : List.isSuffixOf a b = false) : ¬ a <:+ b := by
  intro hs
  have ht : List.isSuffixOf a b = true := List.isSuffixOf_iff_suffix.mpr hs
  rw [h] at ht
  cases ht

/-- Two would-be extensions that are not suffixes of one another cannot
both be suffixes of the same name. -/
theorem strEndsWith_excl {s a b : String}
    (h₁ : List.isSuffixOf a.data b.data = false)
    (h₂ : List.isSuffixOf b.data a.data = false)
    (h : strEndsWith s a = true) : strEndsWith s b = false := by
  refine Bool.eq_false_iff.mpr fun hb => ?_
  rcases List.suffix_or_suffix_of_suffix (strEndsWith_iff.mp h) (strEndsWith_iff.mp hb)
    with hs | hs
  · exact not_suffix_of_isSuffixOf_false h₁ hs
  · exact not_suffix_of_isSuffixOf_false h₂ hs

theorem withSuffix_endsWith (s t : String) : strEndsWith (withSuffix s t) t = true := by
  rw [strEndsWith_iff]
  unfold withSuffix
  split
  · split
    · exact List.suffix_append _ _
    · exact List.suffix_append _ _
  · exact List.suffix_append _ _

/-- A name ending in `.webp` matches none of the three source globs. -/
theorem webpName_not_matchesExt {n : String} (h : strEndsWith n ".webp" = true) :
    matchesExt n = false := by
  unfold matchesExt
  rw [strEndsWith_excl (a := ".webp") (b := ".png") (by decide) (by decide) h,
    strEndsWith_excl (a := ".webp") (b := ".jpg") (by decide) (by decide) h,
    strEndsWith_excl (a := ".webp") (b := ".jpeg") (by decide) (by decide) h]
  rfl

/-- A glob-matching source name is never the `.webp` sibling of any name. -/
theorem matchesExt_ne_webpName {n m : String} (h : matchesExt n = true) :
    n ≠ withSuffix m ".webp" := by
  intro heq
  have hw : strEndsWith n ".webp" = true := by
    rw [heq]
    exact withSuffix_endsWith m ".webp"
  rw [webpName_not_matchesExt hw] at h
  cases h

/-! ### The discovery scan: `sourceFiles` -/

theorem sourceFiles_perm (fs : FS) :
    List.Perm (sourceFiles fs)
      (globList fs ".png" ++ globList fs ".jpg" ++ globList fs ".jpeg") :=
  List.perm_insertionSort _ _

theorem sourceFiles_sorted (fs : FS) : List.Sorted strLe (sourceFiles fs) :=
  List.sorted_insertionSort _ _

theorem mem_globList {fs : FS} {t n : String} :
    n ∈ globList fs t ↔ n ∈ fsKeys fs ∧ strEndsWith n t = true := by
  unfold globList
  rw [List.mem_filter]

theorem mem_sourceFiles {fs : FS} {n : String} :
    n ∈ sourceFiles fs ↔ n ∈ fsKeys fs ∧ matchesExt n = true := by
  rw [(sourceFiles_perm fs).mem_iff]
  simp only [List.mem_append, mem_globList, matchesExt, Bool.or_eq_true]
  tauto

theorem globList_disjoint {fs : FS} {a b : String}
    (h₁ : List.isSuffixOf a.data b.data = false)
    (h₂ : List.isSuffixOf b.data a.data = false) :
    List.Disjoint (globList fs a) (globList fs b) := by
  intro n hna hnb
  have ha := (mem_globList.mp hna).2
  have hb := (mem_globList.mp hnb).2
  rw [strEndsWith_excl h₁ h₂ ha] at hb
  cases hb

theorem sourceFiles_nodup {fs : FS} (h : (fsKeys fs).Nodup) : (sourceFiles fs).Nodup := by
  rw [(sourceFiles_perm fs).nodup_iff]
  have hpng : (globList fs ".png").Nodup := h.filter _
  have hjpg : (globList fs ".jpg").Nodup := h.filter _
  have hjpeg : (globList fs ".jpeg").Nodup := h.filter _
  refine List.Nodup.append (List.Nodup.append hpng hjpg ?_) hjpeg ?_
  · exact globList_disjoint (by decide) (by decide)
  · rw [List.disjoint_append_left]
    exact ⟨globList_disjoint (by decide) (by decide),
      globList_disjoint (by decide) (by decide)⟩

theorem length_filter_matchesExt :
    ∀ l : List String,
      (l.filter fun n => strEndsWith n ".png").length
        + (l.filter fun n => strEndsWith n ".jpg").length
        + (l.filter fun n => strEndsWith n ".jpeg").length
      = (l.filter fun n => matchesExt n).length
  | [] => rfl
  | n :: l => by
    have ih := length_filter_matchesExt l
    by_cases h1 : strEndsWith n ".png" = true
    · have h2 := strEndsWith_excl (a := ".png") (b := ".jpg") (by decide) (by decide) h1
      have h3 := strEndsWith_excl (a := ".png") (b := ".jpeg") (by decide) (by decide) h1
      have hm : matchesExt n = true := by unfold matchesExt; rw [h1]; rfl
      simp only [List.filter_cons, h1, h2, h3, hm, if_true, List.length_cons,
        Bool.false_eq_true, if_false, ite_true, ite_false]
      omega
    · have h1f : strEndsWith n ".png" = false := Bool.not_eq_true _ ▸ h1
      by_cases h2 : strEndsWith n ".jpg" = true
      · have h3 := strEndsWith_excl (a := ".jpg") (b := ".jpeg") (by decide) (by decide) h2
        have hm : matchesExt n = true := by unfold matchesExt; rw [h1f, h2]; rfl
        simp only [List.filter_cons, h1f, h2, h3, hm, if_true, List.length_cons,
          Bool.false_eq_true, if_false, ite_true, ite_false]
        omega
      · have h2f : strEndsWith n ".jpg" = false := Bool.not_eq_true _ ▸ h2
        by_cases h3 : strEndsWith n ".jpeg" = true
        · have hm : matchesExt n = true := by unfold matchesExt; rw [h1f, h2f, h3]; rfl
          simp only [List.filter_cons, h1f, h2f, h3, hm, if_true, List.length_cons,
            Bool.false_eq_true, if_false, ite_true, ite_false]
          omega
        · have h3f : strEndsWith n ".jpeg" = false := Bool.not_eq_true _ ▸ h3
          have hm : matchesExt n = false := by unfold matchesExt; rw [h1f, h2f, h3f]; rfl
          simp only [List.filter_cons, h1f, h2f, h3f, hm, Bool.false_eq_true, if_false,
            ite_false]
          omega

theorem length_sourceFiles (fs : FS) :
    (sourceFiles fs).length = ((fsKeys fs).filter fun n => matchesExt n).length := by
  rw [(sourceFiles_perm fs).length_eq]
  simp only [List.length_append]
  exact length_filter_matchesExt (fsKeys fs)

/-! ### The per-file conversion step -/

theorem convertStep_image {fs : FS} {n : String} {q : Int} {d : Bool} {m : String}
    (hq : encodeOk q = true) (h : fsLookup fs n = some (FileData.image m)) :
    convertStep q d fs n =
      .ok (if d then
            fsUnlink (fsWrite fs (withSuffix n ".webp") (.webp (outChannels m) q 6)) n
          else fsWrite fs (withSuffix n ".webp") (.webp (outChannels m) q 6),
        (n, withSuffix n ".webp")) := by
  simp only [convertStep, h, hq, if_true]

theorem convertStep_ok_inv {fs fs2 : FS} {n : String} {q : Int} {d : Bool}
    {pr : String × String} (h : convertStep q d fs n = .ok (fs2, pr)) :
    ∃ m, fsLookup fs n = some (FileData.image m) ∧ encodeOk q = true ∧
      pr = (n, withSuffix n ".webp") ∧
      fs2 = if d then
          fsUnlink (fsWrite fs (withSuffix n ".webp") (.webp (outChannels m) q 6)) n
        else fsWrite fs (withSuffix n ".webp") (.webp (outChannels m) q 6) := by
  rcases hl : fsLookup fs n with _ | fd
  · simp only [convertStep, hl] at h
    cases h
  · rcases fd with m | _ | _ | ⟨c, qq, mm⟩
    · by_cases hq : encodeOk q = true
      · have hs := convertStep_image (d := d) hq hl
        rw [hs] at h
        simp only [Except.ok.injEq, Prod.mk.injEq] at h
        exact ⟨m, rfl, hq, h.2.symm, h.1.symm⟩
      · rw [Bool.not_eq_true] at hq
        simp only [convertStep, hl, hq] at h
        cases h
    · simp only [convertStep, hl] at h
      cases h
    · simp only [convertStep, hl] at h
      cases h
    · simp only [convertStep, hl] at h
      cases h

/-- The post-state of a successful step agrees with the pre-state on
every glob-matching name other than the processed one. -/
theorem convertStep_lookup_other {fs fs2 : FS} {n n2 : String} {q : Int} {d : Bool}
    {pr : String × String} (h : convertStep q d fs n = .ok (fs2, pr))
    (hne : n2 ≠ n) (hext : matchesExt n2 = true) :
    fsLookup fs2 n2 = fsLookup fs n2 := by
  obtain ⟨m, _, _, _, hfs2⟩ := convertStep_ok_inv h
  have hwne : n2 ≠ withSuffix n ".webp" := matchesExt_ne_webpName hext
  subst hfs2
  by_cases hd : d
  · rw [if_pos hd, fsLookup_unlink_ne _ _ _ hne, fsLookup_write_ne _ _ _ _ hwne]
  · rw [if_neg hd, fsLookup_write_ne _ _ _ _ hwne]

/-- A successful step keeps the directory's names duplicate-free. -/
theorem convertStep_keys_nodup {fs fs2 : FS} {n : String} {q : Int} {d : Bool}
    {pr : String × String} (h : convertStep q d fs n = .ok (fs2, pr))
    (hnd : (fsKeys fs).Nodup) : (fsKeys fs2).Nodup := by
  obtain ⟨m, _, _, _, hfs2⟩ := convertStep_ok_inv h
  subst hfs2
  by_cases hd : d
  · rw [if_pos hd]
    exact nodup_fsKeys_unlink _ _ (nodup_fsKeys_write _ _ _ hnd)
  · rw [if_neg hd]
    exact nodup_fsKeys_write _ _ _ hnd

/-! ### The conversion loop -/

theorem convertLoop_nil (q : Int) (d : Bool) (fs : FS) :
    convertLoop q d fs [] = .ok fs [] := rfl

theorem convertLoop_cons (q : Int) (d : Bool) (fs : FS) (n : String) (ns : List String) :
    convertLoop q d fs (n :: ns) =
      match convertStep q d fs n with
      | .error e => .err fs n e
      | .ok (fs1, pair) => (convertLoop q d fs1 ns).consPair pair := rfl

theorem convertLoop_cons_err {q : Int} {d : Bool} {fs : FS} {n : String} {e : ConvErr}
    (ns : List String) (hstep : convertStep q d fs n = .error e) :
    convertLoop q d fs (n :: ns) = .err fs n e := by
  rw [convertLoop_cons, hstep]

theorem convertLoop_cons_ok {q : Int} {d : Bool} {fs fs1 : FS} {n : String}
    {ns : List String} {pair : String × String}
    (hstep : convertStep q d fs n = .ok (fs1, pair)) :
    convertLoop q d fs (n :: ns) = (convertLoop q d fs1 ns).consPair pair := by
  rw [convertLoop_cons, hstep]

theorem convertLoop_cons_ok_ok {q : Int} {d : Bool} {fs fs1 fs2 : FS} {n : String}
    {ns : List String} {pair : String × String} {conv : List (String × String)}
    (hstep : convertStep q d fs n = .ok (fs1, pair))
    (hloop : convertLoop q d fs1 ns = .ok fs2 conv) :
    convertLoop q d fs (n :: ns) = .ok fs2 (pair :: conv) := by
  rw [convertLoop_cons_ok hstep, hloop]
  rfl

theorem convertLoop_cons_ok_err {q : Int} {d : Bool} {fs fs1 fs2 : FS} {n b : String}
    {ns : List String} {pair : String × String} {e : ConvErr}
    (hstep : convertStep q d fs n = .ok (fs1, pair))
    (hloop : convertLoop q d fs1 ns = .err fs2 b e) :
    convertLoop q d fs (n :: ns) = .err fs2 b e := by
  rw [convertLoop_cons_ok hstep, hloop]
  rfl

/-- Core success lemma: when every listed file opens as an image, the
quality is accepted, and the names are distinct glob matches, the loop
succeeds and records exactly `(name, stem + ".webp")` for each name in
order. -/
theorem convertLoop_ok_map (q : Int) (d : Bool) (hq : encodeOk q = true) :
    ∀ (ns : List String) (fs : FS), ns.Nodup →
      (∀ n ∈ ns, matchesExt n = true) →
      (∀ n ∈ ns, isImage (fsLookup fs n) = true) →
      ∃ fs2, convertLoop q d fs ns = .ok fs2 (ns.map fun n => (n, withSuffix n ".webp"))
  | [], fs, _, _, _ => ⟨fs, rfl⟩
  | n :: ns, fs, hnd, hext, himg => by
    have hni : isImage (fsLookup fs n) = true := himg n (List.mem_cons_self _ _)
    obtain ⟨m, hm⟩ : ∃ m, fsLookup fs n = some (FileData.image m) := by
      rcases hl : fsLookup fs n with _ | fd
      · rw [hl] at hni; cases hni
      · rcases fd with mm | _ | _ | ⟨c, qq, me⟩
        · exact ⟨mm, rfl⟩
        · rw [hl] at hni; cases hni
        · rw [hl] at hni; cases hni
        · rw [hl] at hni; cases hni
    have hstep := convertStep_image (d := d) hq hm
    have hn_not : n ∉ ns := (List.nodup_cons.mp hnd).1
    obtain ⟨fs3, hloop⟩ :=
      convertLoop_ok_map q d hq ns
        (if d then
          fsUnlink (fsWrite fs (withSuffix n ".webp") (.webp (outChannels m) q 6)) n
        else fsWrite fs (withSuffix n ".webp") (.webp (outChannels m) q 6))
        (List.nodup_cons.mp hnd).2
        (fun n2 h2 => hext n2 (List.mem_cons_of_mem _ h2))
        (fun n2 h2 => by
          rw [convertStep_lookup_other hstep
            (fun he => hn_not (he ▸ h2))
            (hext n2 (List.mem_cons_of_mem _ h2))]
          exact himg n2 (List.mem_cons_of_mem _ h2))
    exact ⟨fs3, convertLoop_cons_ok_ok hstep hloop⟩

/-- Every recorded source name comes from the processed list. -/
theorem convertLoop_fst_mem (q : Int) (d : Bool) :
    ∀ (ns : List String) (fs fs2 : FS) (conv : List (String × String)),
      convertLoop q d fs ns = .ok fs2 conv → ∀ p ∈ conv, p.1 ∈ ns
  | [], fs, fs2, conv, h, p, hp => by
    rw [convertLoop_nil] at h
    cases h
    cases hp
  | n :: ns, fs, fs2, conv, h, p, hp => by
    rcases hstep : convertStep q d fs n with e | ⟨fs1, pair⟩
    · rw [convertLoop_cons_err ns hstep] at h
      cases h
    · rcases hloop : convertLoop q d fs1 ns with ⟨fs3, conv3⟩ | ⟨fs3, m3, e3⟩
      · rw [convertLoop_cons_ok_ok hstep hloop] at h
        simp only [RunResult.ok.injEq] at h
        rw [← h.2] at hp
        rcases List.mem_cons.mp hp with hp1 | hp1
        · obtain ⟨m, _, _, hpr, _⟩ := convertStep_ok_inv hstep
          rw [hp1, hpr]
          exact List.mem_cons_self _ _
        · exact List.mem_cons_of_mem _
            (convertLoop_fst_mem q d ns fs1 fs3 conv3 hloop p hp1)
      · rw [convertLoop_cons_ok_err hstep hloop] at h
        cases h

theorem finalFS_consPair (pair : String × String) (r : RunResult) :
    (r.consPair pair).finalFS = r.finalFS := by
  rcases r with ⟨fs, conv⟩ | ⟨fs, m, e⟩ <;> rfl

/-- With `delete_original` false the run never removes a name. -/
theorem convertLoop_keys_mono (q : Int) :
    ∀ (ns : List String) (fs : FS) (m : String), m ∈ fsKeys fs →
      m ∈ fsKeys (convertLoop q false fs ns).finalFS
  | [], _, _, h => h
  | n :: ns, fs, m, h => by
    rcases hstep : convertStep q false fs n with e | ⟨fs1, pair⟩
    · rw [convertLoop_cons_err ns hstep]
      exact h
    · rw [convertLoop_cons_ok hstep, finalFS_consPair]
      refine convertLoop_keys_mono q ns fs1 m ?_
      obtain ⟨mo, _, _, _, hfs1⟩ := convertStep_ok_inv hstep
      rw [hfs1, if_neg (by simp)]
      exact (mem_fsKeys_write fs _ m _).mpr (Or.inl h)

/-- Whatever happens and whatever `delete_original` is, every name the
run adds to the directory ends in `.webp`. -/
theorem convertLoop_keys_webp (q : Int) (d : Bool) :
    ∀ (ns : List String) (fs : FS) (m : String),
      m ∈ fsKeys (convertLoop q d fs ns).finalFS →
      m ∈ fsKeys fs ∨ strEndsWith m ".webp" = true
  | [], _, _, h => Or.inl h
  | n :: ns, fs, m, h => by
    rcases hstep : convertStep q d fs n with e | ⟨fs1, pair⟩
    · rw [convertLoop_cons_err ns hstep] at h
      exact Or.inl h
    · rw [convertLoop_cons_ok hstep, finalFS_consPair] at h
      rcases convertLoop_keys_webp q d ns fs1 m h with h1 | h1
      · obtain ⟨mo, _, _, _, hfs1⟩ := convertStep_ok_inv hstep
        rw [hfs1] at h1
        by_cases hd : d = true
        · rw [if_pos hd] at h1
          rcases (mem_fsKeys_write fs _ m _).mp (mem_fsKeys_unlink _ _ _ h1) with h3 | h3
          · exact Or.inl h3
          · rw [h3]
            exact Or.inr (withSuffix_endsWith n ".webp")
        · rw [if_neg hd] at h1
          rcases (mem_fsKeys_write fs _ m _).mp h1 with h3 | h3
          · exact Or.inl h3
          · rw [h3]
            exact Or.inr (withSuffix_endsWith n ".webp")
      · exact Or.inr h1

/-- A glob-matching name that is absent stays absent for the rest of the
run: later writes only create `.webp` names and deletes only remove. -/
theorem convertLoop_not_mem (q : Int) (d : Bool) :
    ∀ (ns : List String) (fs : FS) (s : String), matchesExt s = true →
      s ∉ fsKeys fs → s ∉ fsKeys (convertLoop q d fs ns).finalFS
  | [], _, _, _, habs => habs
  | n :: ns, fs, s, hext, habs => by
    rcases hstep : convertStep q d fs n with e | ⟨fs1, pair⟩
    · rw [convertLoop_cons_err ns hstep]
      exact habs
    · rw [convertLoop_cons_ok hstep, finalFS_consPair]
      refine convertLoop_not_mem q d ns fs1 s hext ?_
      obtain ⟨mo, _, _, _, hfs1⟩ := convertStep_ok_inv hstep
      have hsw : s ≠ withSuffix n ".webp" := matchesExt_ne_webpName hext
      rw [hfs1]
      by_cases hd : d = true
      · rw [if_pos hd]
        intro hmem
        rcases (mem_fsKeys_write fs _ s _).mp (mem_fsKeys_unlink _ _ _ hmem) with h3 | h3
        · exact habs h3
        · exact hsw h3
      · rw [if_neg hd]
        intro hmem
        rcases (mem_fsKeys_write fs _ s _).mp hmem with h3 | h3
        · exact habs h3
        · exact hsw h3

/-- With `delete_original` true, each successfully recorded source file
is gone from the final directory state. -/
theorem convertLoop_deleted (q : Int) :
    ∀ (ns : List String) (fs fs2 : FS) (conv : List (String × String)),
      (fsKeys fs).Nodup → (∀ n ∈ ns, matchesExt n = true) →
      convertLoop q true fs ns = .ok fs2 conv →
      ∀ p ∈ conv, p.1 ∉ fsKeys fs2
  | [], fs, fs2, conv, _, _, h, p, hp => by
    rw [convertLoop_nil] at h
    cases h
    cases hp
  | n :: ns, fs, fs2, conv, hnd, hext, h, p, hp => by
    rcases hstep : convertStep q true fs n with e | ⟨fs1, pair⟩
    · rw [convertLoop_cons_err ns hstep] at h
      cases h
    · rcases hloop : convertLoop q true fs1 ns with ⟨fs3, conv3⟩ | ⟨fs3, m3, e3⟩
      · rw [convertLoop_cons_ok_ok hstep hloop] at h
        simp only [RunResult.ok.injEq] at h
        obtain ⟨hfs, hconv⟩ := h
        subst hfs
        rw [← hconv] at hp
        rcases List.mem_cons.mp hp with hp1 | hp1
        · obtain ⟨mo, hlk, hqq, hpr, hfs1⟩ := convertStep_ok_inv hstep
          rw [if_pos rfl] at hfs1
          have hnmem : n ∉ fsKeys fs1 := by
            rw [hfs1]
            exact not_mem_fsKeys_unlink_self _ _ (nodup_fsKeys_write _ _ _ hnd)
          have hfin := convertLoop_not_mem q true ns fs1 n
            (hext n (List.mem_cons_self _ _)) hnmem
          rw [hloop] at hfin
          rw [hp1, hpr]
          exact hfin
        · exact convertLoop_deleted q ns fs1 fs3 conv3
            (convertStep_keys_nodup hstep hnd)
            (fun n2 h2 => hext n2 (List.mem_cons_of_mem _ h2))
            hloop p hp1
      · rw [convertLoop_cons_ok_err hstep hloop] at h
        cases h

/-- Error inversion: a failed run is a successful run on a strict prefix
of the work list followed by the first failing step; the state at the
failure is exactly the state after that prefix, subsequent files having
never been touched, and no result list is produced. -/
theorem convertLoop_err_inv (q : Int) (d : Bool) :
    ∀ (ns : List String) (fs fs2 : FS) (b : String) (e : ConvErr),
      convertLoop q d fs ns = .err fs2 b e →
      ∃ done rest conv, ns = done ++ b :: rest ∧
        convertLoop q d fs done = .ok fs2 conv ∧
        convertStep q d fs2 b = .error e
  | [], fs, fs2, b, e, h => by
    rw [convertLoop_nil] at h
    cases h
  | n :: ns, fs, fs2, b, e, h => by
    rcases hstep : convertStep q d fs n with e1 | ⟨fs1, pair⟩
    · rw [convertLoop_cons_err ns hstep] at h
      simp only [RunResult.err.injEq] at h
      obtain ⟨h1, h2, h3⟩ := h
      subst h1
      subst h2
      subst h3
      exact ⟨[], ns, [], rfl, rfl, hstep⟩
    · rcases hloop : convertLoop q d fs1 ns with ⟨fs3, conv3⟩ | ⟨fs3, m3, e3⟩
      · rw [convertLoop_cons_ok_ok hstep hloop] at h
        cases h
      · rw [convertLoop_cons_ok_err hstep hloop] at h
        simp only [RunResult.err.injEq] at h
        obtain ⟨h1, h2, h3⟩ := h
        subst h1
        subst h2
        subst h3
        obtain ⟨done, rest, conv, hns, hdone, hstep2⟩ :=
          convertLoop_err_inv q d ns fs1 fs3 m3 e3 hloop
        exact ⟨n :: done, rest, pair :: conv, by rw [hns, List.cons_append],
          convertLoop_cons_ok_ok hstep hdone, hstep2⟩

theorem mainOutput_length (conv : List (String × String)) :
    (mainOutput conv).length = conv.length + 1 := by
  simp [mainOutput]

theorem fsLookup_eq_none_of_not_mem {fs : FS} {n : String} (h : n ∉ fsKeys fs) :
    fsLookup fs n = none := by
  rcases hl : fsLookup fs n with _ | d2
  · rfl
  · exact absurd (fsLookup_mem_fsKeys fs n (by rw [hl]; intro hc; cases hc)) h

/-! ### The claims -/

/-- C1: for every directory state whose glob-matching files are all
valid images, with distinct names and an accepted quality, the converter
succeeds and returns exactly one pair per matching file, in the sorted
discovery order, each pair being (source base name, source stem +
".webp"); the number of entries equals the number of matching files.
The spec's a.png/b.jpg/c.jpeg scenario is checked in the witness. -/
theorem C1_successful_run_pairs (fs : FS) (q : Int) (d : Bool)
    (hkeys : (fsKeys fs).Nodup) (hq : encodeOk q = true)
    (hvalid : ∀ n ∈ fsKeys fs, matchesExt n = true → isImage (fsLookup fs n) = true) :
    ∃ fs2, convert_images_to_webp fs q d =
        .ok fs2 ((sourceFiles fs).map fun n => (n, withSuffix n ".webp")) ∧
      ((sourceFiles fs).map fun n => (n, withSuffix n ".webp")).length =
        ((fsKeys fs).filter fun n => matchesExt n).length := by
  obtain ⟨fs2, h⟩ := convertLoop_ok_map q d hq (sourceFiles fs) fs
    (sourceFiles_nodup hkeys)
    (fun n hn => (mem_sourceFiles.mp hn).2)
    (fun n hn => hvalid n (mem_sourceFiles.mp hn).1 (mem_sourceFiles.mp hn).2)
  exact ⟨fs2, h, by rw [List.length_map, length_sourceFiles]⟩

theorem C1_witness :
    (∃ fs2, convert_images_to_webp fsABC 82 false =
        .ok fs2 ((sourceFiles fsABC).map fun n => (n, withSuffix n ".webp")) ∧
      ((sourceFiles fsABC).map fun n => (n, withSuffix n ".webp")).length =
        ((fsKeys fsABC).filter fun n => matchesExt n).length) ∧
    (sourceFiles fsABC).map (fun n => (n, withSuffix n ".webp")) =
      [("a.png", "a.webp"), ("b.jpg", "b.webp"), ("c.jpeg", "c.webp")] :=
  ⟨C1_successful_run_pairs fsABC 82 false (by decide) (by decide) (by decide), by decide⟩

/-- C2: the set of processed files is exactly the names in the directory
ending in `.png`, `.jpg` or `.jpeg` with that exact casing; processing
order is the lexicographic order of the (same-directory) paths; a file
with any other extension never contributes an entry to the result. -/
theorem C2_discovery_set_and_order (fs : FS) (q : Int) (d : Bool) :
    (∀ n, n ∈ sourceFiles fs ↔ n ∈ fsKeys fs ∧ matchesExt n = true) ∧
    List.Sorted strLe (sourceFiles fs) ∧
    (∀ fs2 conv, convert_images_to_webp fs q d = .ok fs2 conv →
      ∀ p ∈ conv, p.1 ∈ fsKeys fs ∧ matchesExt p.1 = true) :=
  ⟨fun _ => mem_sourceFiles,
   sourceFiles_sorted fs,
   fun fs2 conv h p hp =>
     mem_sourceFiles.mp (convertLoop_fst_mem q d (sourceFiles fs) fs fs2 conv h p hp)⟩

theorem C2_witness :
    ((∀ n, n ∈ sourceFiles fsGif ↔ n ∈ fsKeys fsGif ∧ matchesExt n = true) ∧
      List.Sorted strLe (sourceFiles fsGif) ∧
      (∀ fs2 conv, convert_images_to_webp fsGif 82 false = .ok fs2 conv →
        ∀ p ∈ conv, p.1 ∈ fsKeys fsGif ∧ matchesExt p.1 = true)) ∧
    sourceFiles fsGif = ["a.png"] ∧ matchesExt "b.gif" = false :=
  ⟨C2_discovery_set_and_order fsGif 82 false, by decide, by decide⟩

/-- C3: an opened image is converted to 4 channels (RGBA) exactly when
its mode is `RGBA` or `P`, and to 3 channels (RGB) in every other case —
including grayscale-with-alpha, whose alpha is dropped — and is then
encoded as WEBP with the given quality and `method=6`. -/
theorem C3_mode_conversion (fs : FS) (n : String) (q : Int) (d : Bool) (m : String)
    (hopen : fsLookup fs n = some (FileData.image m)) (hq : encodeOk q = true)
    (hext : matchesExt n = true) :
    ∃ fs2 c, convertStep q d fs n = .ok (fs2, (n, withSuffix n ".webp")) ∧
      fsLookup fs2 (withSuffix n ".webp") = some (.webp c q 6) ∧
      (c = 4 ↔ (m = "RGBA" ∨ m = "P")) ∧ (c = 4 ∨ c = 3) := by
  have hstep := convertStep_image (d := d) hq hopen
  have hwn : withSuffix n ".webp" ≠ n := Ne.symm (matchesExt_ne_webpName hext)
  refine ⟨_, outChannels m, hstep, ?_, ?_, ?_⟩
  · by_cases hd : d = true
    · rw [if_pos hd, fsLookup_unlink_ne _ _ _ hwn, fsLookup_write_self]
    · rw [if_neg hd, fsLookup_write_self]
  · unfold outChannels
    by_cases hm : m = "RGBA" ∨ m = "P"
    · simp [hm]
    · simp [hm]
  · unfold outChannels
    by_cases hm : m = "RGBA" ∨ m = "P"
    · simp [hm]
    · simp [hm]

theorem C3_witness :
    ∃ fs2 c, convertStep 82 false fsLA "x.png" =
        .ok (fs2, ("x.png", withSuffix "x.png" ".webp")) ∧
      fsLookup fs2 (withSuffix "x.png" ".webp") = some (.webp c 82 6) ∧
      (c = 4 ↔ (("LA" : String) = "RGBA" ∨ ("LA" : String) = "P")) ∧ (c = 4 ∨ c = 3) :=
  C3_mode_conversion fsLA "x.png" 82 false "LA" (by decide) (by decide) (by decide)

/-- C4: with `delete_original` false every original name is still
present after the run (only `.webp`-named files are ever added, whatever
the flag); with `delete_original` true every successfully converted
original is gone from the final state, and each step's post-state
factors as delete-after-write: the step's WEBP output exists in it while
the source does not. -/
theorem C4_delete_original_effects (fs : FS) (q : Int)
    (hkeys : (fsKeys fs).Nodup) :
    (∀ n ∈ fsKeys fs, n ∈ fsKeys (convert_images_to_webp fs q false).finalFS) ∧
    (∀ d : Bool, ∀ n ∈ fsKeys (convert_images_to_webp fs q d).finalFS,
      n ∈ fsKeys fs ∨ strEndsWith n ".webp" = true) ∧
    (∀ fs2 conv, convert_images_to_webp fs q true = .ok fs2 conv →
      ∀ p ∈ conv, p.1 ∉ fsKeys fs2) ∧
    (∀ (g g2 : FS) (n : String) (pr : String × String),
      (fsKeys g).Nodup → matchesExt n = true →
      convertStep q true g n = .ok (g2, pr) →
      ∃ dd, g2 = fsUnlink (fsWrite g (withSuffix n ".webp") dd) n ∧
        fsLookup g2 (withSuffix n ".webp") = some dd ∧ fsLookup g2 n = none) := by
  refine ⟨fun n hn => convertLoop_keys_mono q (sourceFiles fs) fs n hn,
    fun d n hn => convertLoop_keys_webp q d (sourceFiles fs) fs n hn,
    fun fs2 conv h p hp => convertLoop_deleted q (sourceFiles fs) fs fs2 conv hkeys
      (fun n hn => (mem_sourceFiles.mp hn).2) h p hp,
    fun g g2 n pr hnd hext hstep => ?_⟩
  obtain ⟨mo, hlk, hqq, hpr, hg2⟩ := convertStep_ok_inv hstep
  rw [if_pos rfl] at hg2
  refine ⟨.webp (outChannels mo) q 6, hg2, ?_, ?_⟩
  · rw [hg2, fsLookup_unlink_ne _ _ _ (Ne.symm (matchesExt_ne_webpName hext)),
      fsLookup_write_self]
  · refine fsLookup_eq_none_of_not_mem ?_
    rw [hg2]
    exact not_mem_fsKeys_unlink_self _ _ (nodup_fsKeys_write _ _ _ hnd)

theorem C4_witness :
    ((∀ n ∈ fsKeys fsC4, n ∈ fsKeys (convert_images_to_webp fsC4 82 false).finalFS) ∧
      (∀ d : Bool, ∀ n ∈ fsKeys (convert_images_to_webp fsC4 82 d).finalFS,
        n ∈ fsKeys fsC4 ∨ strEndsWith n ".webp" = true) ∧
      (∀ fs2 conv, convert_images_to_webp fsC4 82 true = .ok fs2 conv →
        ∀ p ∈ conv, p.1 ∉ fsKeys fs2) ∧
      (∀ (g g2 : FS) (n : String) (pr : String × String),
        (fsKeys g).Nodup → matchesExt n = true →
        convertStep 82 true g n = .ok (g2, pr) →
        ∃ dd, g2 = fsUnlink (fsWrite g (withSuffix n ".webp") dd) n ∧
          fsLookup g2 (withSuffix n ".webp") = some dd ∧ fsLookup g2 n = none)) ∧
    convert_images_to_webp fsC4 82 false =
      .ok [("a.png", .image "RGBA"), ("notes.txt", .other), ("a.webp", .webp 4 82 6)]
        [("a.png", "a.webp")] ∧
    convert_images_to_webp fsC4 82 true =
      .ok [("notes.txt", .other), ("a.webp", .webp 4 82 6)] [("a.png", "a.webp")] :=
  ⟨C4_delete_original_effects fsC4 82 (by decide), by decide, by decide⟩

/-- C5: no error is caught anywhere: a run that raises returns no result
sequence, and it is exactly a successful run on the files before the
failing one (those remain converted, and deleted when requested, in the
final state) followed by the failing step; the files after the failing
one were never touched. -/
theorem C5_first_error_aborts (fs fs2 : FS) (q : Int) (d : Bool) (b : String)
    (e : ConvErr) (h : convert_images_to_webp fs q d = .err fs2 b e) :
    (convert_images_to_webp fs q d).converted = none ∧
    ∃ done rest conv, sourceFiles fs = done ++ b :: rest ∧
      convertLoop q d fs done = .ok fs2 conv ∧
      convertStep q d fs2 b = .error e := by
  constructor
  · rw [h]
    rfl
  · exact convertLoop_err_inv q d (sourceFiles fs) fs fs2 b e h

theorem C5_witness :
    ((convert_images_to_webp fsCorrupt 82 true).converted = none ∧
      ∃ done rest conv, sourceFiles fsCorrupt = done ++ "b.jpg" :: rest ∧
        convertLoop 82 true fsCorrupt done = .ok fsErrState conv ∧
        convertStep 82 true fsErrState "b.jpg" = .error .openError) ∧
    convert_images_to_webp fsCorrupt 82 true = .err fsErrState "b.jpg" .openError :=
  ⟨C5_first_error_aborts fsCorrupt fsErrState 82 true "b.jpg" .openError (by decide),
    by decide⟩

/-- C6: `resolve_root` with a truthy supplied path returns that path
expanded and normalized (abstract `expanduser().resolve()`); with no
path it returns the resolved `images` directory beside the script; it
validates nothing, and running the converter on a nonexistent — hence
empty — root yields an empty result sequence rather than an error. -/
theorem C6_resolve_root (f g : String → String) (s : String) :
    (∀ p : String, pathTruthy (some p) = true → resolve_root f g s (some p) = f p) ∧
    resolve_root f g s none = g (s ++ "/images") ∧
    (∀ (q : Int) (d : Bool), convert_images_to_webp [] q d = .ok [] []) := by
  refine ⟨fun p hp => ?_, rfl, fun q d => rfl⟩
  unfold resolve_root
  rw [if_pos hp]
  rfl

theorem C6_witness :
    resolve_root id id "/app" (some "~/pics") = "~/pics" ∧
    resolve_root id id "/app" none = "/app/images" ∧
    convert_images_to_webp [] 82 false = .ok [] [] :=
  ⟨(C6_resolve_root id id "/app").1 "~/pics" (by decide),
    by rw [(C6_resolve_root id id "/app").2.1]; decide,
    (C6_resolve_root id id "/app").2.2 82 false⟩

/-- C7: the entry point prints exactly one `"src -> dst"` line per
returned pair, in sequence order, followed by one final line
`"converted: <count>"` where count is the sequence's length; for the
empty directory the whole output is just `"converted: 0"`. -/
theorem C7_main_output (conv : List (String × String)) :
    (mainOutput conv).length = conv.length + 1 ∧
    (∀ i : Fin conv.length,
      (mainOutput conv).get ⟨i.1, by rw [mainOutput_length]; exact Nat.lt_succ_of_lt i.2⟩ =
        (conv.get i).1 ++ " -> " ++ (conv.get i).2) ∧
    (mainOutput conv).getLast? = some ("converted: " ++ toString conv.length) ∧
    (∀ (q : Int) (d : Bool) (fs2 : FS) (c2 : List (String × String)),
      convert_images_to_webp [] q d = .ok fs2 c2 → mainOutput c2 = ["converted: 0"]) := by
  refine ⟨mainOutput_length conv, fun i => ?_, List.getLast?_concat _, fun q d fs2 c2 h => ?_⟩
  · have h1 : i.1 < (conv.map fun p => p.1 ++ " -> " ++ p.2).length := by
      rw [List.length_map]
      exact i.2
    have h2 : (mainOutput conv).get
          ⟨i.1, by rw [mainOutput_length]; exact Nat.lt_succ_of_lt i.2⟩ =
        (conv.map fun p => p.1 ++ " -> " ++ p.2).get ⟨i.1, h1⟩ :=
      List.get_append i.1 h1
    rw [h2, List.get_map]
  · have h0 : RunResult.ok ([] : FS) ([] : List (String × String)) = .ok fs2 c2 := h
    cases h0
    rfl

theorem C7_witness :
    (mainOutput [("a.png", "a.webp")]).length = 2 ∧
    mainOutput [("a.png", "a.webp")] = ["a.png -> a.webp", "converted: 1"] ∧
    mainOutput [] = ["converted: 0"] :=
  ⟨(C7_main_output [("a.png", "a.webp")]).1, by decide,
    (C7_main_output []).2.2.2 82 false [] [] rfl⟩

/-- C8: the program performs no range check on quality and hands it to
the encoder unchanged; when the encoder rejects it, the run fails with
an encoding error raised at the encode step of the first processed file,
the directory still in its initial state. -/
theorem C8_quality_out_of_range (fs : FS) (q : Int) (d : Bool) (n : String)
    (rest : List String) (m : String)
    (hq : encodeOk q = false)
    (hsrc : sourceFiles fs = n :: rest)
    (hopen : fsLookup fs n = some (FileData.image m)) :
    convert_images_to_webp fs q d = .err fs n .encodeError := by
  have hstep : convertStep q d fs n = .error .encodeError := by
    simp [convertStep, hopen, hq]
  show convertLoop q d fs (sourceFiles fs) = _
  rw [hsrc]
  exact convertLoop_cons_err rest hstep

theorem C8_witness :
    convert_images_to_webp fsOne 101 false = .err fsOne "a.png" .encodeError :=
  C8_quality_out_of_range fsOne 101 false "a.png" [] "RGB" (by decide) (by decide)
    (by decide)

/-- C9: discovery is deterministic and idempotent: the scan is a pure
function of the directory contents — any two listing orders of the same
entries (and in particular two scans of the unchanged directory) produce
the same sorted file list. -/
theorem C9_scan_deterministic (f1 f2 : FS) (h : List.Perm f1 f2) :
    sourceFiles f1 = sourceFiles f2 := by
  have hk : List.Perm (fsKeys f1) (fsKeys f2) := h.map Prod.fst
  have hg : ∀ t : String, List.Perm (globList f1 t) (globList f2 t) :=
    fun t => hk.filter _
  have hp : List.Perm (sourceFiles f1) (sourceFiles f2) :=
    (sourceFiles_perm f1).trans
      ((((hg ".png").append (hg ".jpg")).append (hg ".jpeg")).trans
        (sourceFiles_perm f2).symm)
  exact List.eq_of_perm_of_sorted hp (sourceFiles_sorted f1) (sourceFiles_sorted f2)

theorem C9_witness :
    sourceFiles fsP1 = sourceFiles fsP2 ∧ sourceFiles fsP1 = ["a.png", "b.jpg"] :=
  ⟨C9_scan_deterministic fsP1 fsP2 (List.Perm.swap _ _ _), by decide⟩

/-- C10: destination base names are not guaranteed unique: with sources
`a.jpg` and `a.png`, both map to the sibling `a.webp`; the later file in
sorted order (`a.png`, RGBA, hence 4 channels) silently overwrites the
output of the earlier one (`a.jpg`, 3 channels), and the result sequence
holds two entries with the same destination name. -/
theorem C10_duplicate_stem_overwrite :
    convert_images_to_webp fsDup 82 false =
      .ok [("a.jpg", .image "RGB"), ("a.png", .image "RGBA"), ("a.webp", .webp 4 82 6)]
        [("a.jpg", "a.webp"), ("a.png", "a.webp")] := by
  decide

end ConvertImages
